import Mathlib

/-!
Shallow embedding of `report.py`, the daily pivot-level report generator
(seed tickers, industry peers, pivot support/resistance levels, grouped
output).

Modelling conventions:
* Python floats are modelled as exact rationals; the float value NaN
  (produced by `float("nan")` and by failed numeric parses) is modelled
  as `none` in `F := Option ℚ`.
* Python strings are Lean `String`s; `pyUpper` models `str.upper`
  (per-character ASCII uppercasing, which is all that ticker symbols use).
* Code that raises is modelled with `Except`/`Option`: a `fetch` argument
  of type `String → Option Bar` returns `none` exactly when the real
  per-ticker download/parse raises, and `build_group`/`build_all` return
  `Except.error` exactly where the Python raises `RuntimeError`.
* The external world (HTTP peer response, yfinance history) is passed in
  as explicit data, so every function is a pure function of its inputs.
-/

namespace Report

/-- A Python float: `some q` is the finite value `q`; `none` is NaN. -/
abbrev F : Type := Option ℚ

/-- Constant `MAX_PEERS = 12` (report.py line 51). -/
def MAX_PEERS : ℕ := 12

/-- ASCII uppercasing of one character, as Python `str.upper` does for
the ASCII range tickers live in. -/
def upChar (c : Char) : Char :=
  if 97 ≤ c.toNat ∧ c.toNat ≤ 122 then Char.ofNat (c.toNat - 32) else c

/-- Models Python `s.upper()` for ticker strings. -/
def pyUpper (s : String) : String := ⟨s.data.map upChar⟩

/-- The de-duplication loop of `build_group` (report.py lines 175-179):
walk the list, uppercase each element, keep it only if its uppercase form
was not seen before. `seen` is the accumulator set. -/
def dedupUpperAux : List String → List String → List String
  | [], _ => []
  | t :: ts, seen =>
    let u := pyUpper t
    if u ∈ seen then dedupUpperAux ts seen else u :: dedupUpperAux ts (u :: seen)

/-- Loop `seen = set(); ordered = []; for t in tickers: ...` with an initially
empty `seen` set (report.py lines 175-179). -/
def dedupUpper (ts : List String) : List String := dedupUpperAux ts []

/-- The three relevant shapes of a Finnhub `/stock/peers` call outcome:
a JSON list (whose entries may or may not be strings), a JSON non-list,
or a raised exception (network error / non-2xx / bad JSON). -/
inductive PeersResp where
  | ok (entries : List (Option String))
  | notList
  | err
deriving DecidableEq

/-- Function `get_peers_from_finnhub` (report.py lines 78-96): empty when no API
key is configured, on a non-list payload, or on any exception; otherwise
keep string entries, uppercase them, drop the seed (case-insensitively),
and truncate to `MAX_PEERS`. -/
def get_peers_from_finnhub (key seed : String) (resp : PeersResp) : List String :=
  if key = "" then []
  else
    match resp with
    | .ok entries =>
      let strs := entries.filterMap id
      ((strs.filter (fun p => pyUpper p != pyUpper seed)).map pyUpper).take MAX_PEERS
    | .notList => []
    | .err => []

/-- The peer list as the program actually consumes it: the candidate list
built in `build_group` (report.py line 174: `[seed] + get_peers_from_finnhub(seed)`
followed by the case-insensitive de-duplication of lines 175-179), with the
leading seed removed. -/
def resolvedPeers (key seed : String) (resp : PeersResp) : List String :=
  (dedupUpper (seed :: get_peers_from_finnhub key seed resp)).drop 1

/-- Function `pivots` (report.py lines 98-104): the floor-trader pivot levels,
returned as `(P, S1, S2, R1, R2)` exactly as in the source. -/
def pivots (h l c : ℚ) : ℚ × ℚ × ℚ × ℚ × ℚ :=
  let P := (h + l + c) / 3
  let R1 := 2 * P - l
  let S1 := 2 * P - h
  let R2 := P + (h - l)
  let S2 := P - (h - l)
  (P, S1, S2, R1, R2)

/-- Function `pivots` lifted to NaN-aware floats: in IEEE arithmetic every one of
the five outputs is NaN as soon as any of `h`, `l`, `c` is NaN, since
each output expression uses `P = (h+l+c)/3`. -/
def pivotsF : F → F → F → F × F × F × F × F
  | some hv, some lv, some cv =>
    let q := pivots hv lv cv
    (some q.1, some q.2.1, some q.2.2.1, some q.2.2.2.1, some q.2.2.2.2)
  | _, _, _ => (none, none, none, none, none)

/-- Round-half-to-even to an integer, on exact rationals: the idealised
semantics of Python `round`. -/
def rndHalfEven (x : ℚ) : ℤ :=
  let f := ⌊x⌋
  if x - f < 1 / 2 then f
  else if (1 : ℚ) / 2 < x - f then f + 1
  else if f % 2 = 0 then f else f + 1

/-- Models Python `round(x, 2)` on exact rationals. -/
def rnd2 (q : ℚ) : ℚ := (rndHalfEven (q * 100) : ℚ) / 100

/-- Python `round(x, 2)` on a possibly-NaN float (`round(nan, 2)` is NaN). -/
def rnd2F : F → F := Option.map rnd2

/-- One daily bar as delivered by the price-data provider (one row of the
yfinance frame): date plus High/Low/Close, any of which may be NaN. -/
structure RawBar where
  date : String
  high : F
  low : F
  close : F
deriving DecidableEq

/-- The value `(date_str, h, l, c, prevc)` returned by `fetch_bar`. -/
structure Bar where
  date : String
  high : F
  low : F
  close : F
  prevClose : F
deriving DecidableEq

/-- Function `fetch_bar` (report.py lines 112-145), as a function of the provider's
history (oldest first): raises (`Except.error`) on an empty frame; takes
the last bar as current; takes the second-to-last close as `prevc`, or the
current close when only one bar exists. -/
def fetch_bar (hist : List RawBar) : Except String Bar :=
  match hist.reverse with
  | [] => Except.error "yfinance empty"
  | [b] => Except.ok ⟨b.date, b.high, b.low, b.close, b.close⟩
  | b :: p :: _ => Except.ok ⟨b.date, b.high, b.low, b.close, p.close⟩

/-- The guard `isinstance(c, (int, float)) and math.isfinite(c) and c > 0`
(report.py line 150): true iff the float is a finite positive number. -/
def posFinite : F → Bool
  | some v => decide (0 < v)
  | none => false

/-- The close actually used downstream (report.py lines 149-151): the
fetched close if it is a finite positive number, else `prevc`. -/
def effClose (b : Bar) : F := if posFinite b.close then b.close else b.prevClose

/-- Report.py line 153:
`chg = (c - prevc) / prevc * 100.0 if (isinstance(prevc, (int, float)) and prevc) else float("nan")`.
A NaN `prevc` is a float and truthy, so the division happens and yields NaN;
a zero `prevc` is falsy, so the result is NaN directly. -/
def chgF (c prevc : F) : F :=
  match prevc with
  | none => none
  | some p =>
    if p = 0 then none
    else
      match c with
      | none => none
      | some cv => some ((cv - p) / p * 100)

/-- One output row (report.py lines 154-167 plus the `Group`/`IsSeed`
fields added in `build_group`). The numeric cells hold the rounded values
the dict stores; the `% Chg` cell stores NaN (`none`) where the source
stores the empty string, since the source writes `""` exactly when `chg`
is not finite. -/
structure Row where
  ticker : String
  date : String
  high : F
  low : F
  close : F
  prevClose : F
  chg : F
  pivotP : F
  s1 : F
  s2 : F
  r1 : F
  r2 : F
  group : String
  isSeed : Bool
deriving DecidableEq

/-- Function `make_row` (report.py lines 147-167) applied to an already-fetched
bar: substitute `prevc` for a bad close, compute pivots and percent
change, round everything to 2 decimals for the stored dict. -/
def make_row (ticker : String) (b : Bar) : Row :=
  let c := effClose b
  let pv := pivotsF b.high b.low c
  { ticker := ticker
    date := b.date
    high := rnd2F b.high
    low := rnd2F b.low
    close := rnd2F c
    prevClose := rnd2F b.prevClose
    chg := rnd2F (chgF c b.prevClose)
    pivotP := rnd2F pv.1
    s1 := rnd2F pv.2.1
    s2 := rnd2F pv.2.2.1
    r1 := rnd2F pv.2.2.2.1
    r2 := rnd2F pv.2.2.2.2
    group := ""
    isSeed := false }

/-- Sort key position of a row under
`sort_values(by=["IsSeed","Ticker"], ascending=[False, True])`:
seed rows (IsSeed true, descending) come before non-seed rows. -/
def keyNat (r : Row) : ℕ := if r.isSeed then 0 else 1

/-- The total preorder realised by the pandas two-column sort of
report.py line 198: first `IsSeed` descending, then `Ticker` ascending. -/
def rowLE (a b : Row) : Prop :=
  keyNat a < keyNat b ∨ (keyNat a = keyNat b ∧ a.ticker ≤ b.ticker)

instance : DecidableRel rowLE := fun a b =>
  inferInstanceAs (Decidable (keyNat a < keyNat b ∨ (keyNat a = keyNat b ∧ a.ticker ≤ b.ticker)))

instance : IsTotal Row rowLE where
  total a b := by
    rcases Nat.lt_trichotomy (keyNat a) (keyNat b) with h | h | h
    · exact Or.inl (Or.inl h)
    · rcases le_total a.ticker b.ticker with ht | ht
      · exact Or.inl (Or.inr ⟨h, ht⟩)
      · exact Or.inr (Or.inr ⟨h.symm, ht⟩)
    · exact Or.inr (Or.inl h)

instance : IsTrans Row rowLE where
  trans a b c hab hbc := by
    rcases hab with h1 | ⟨h1, t1⟩ <;> rcases hbc with h2 | ⟨h2, t2⟩
    · exact Or.inl (h1.trans h2)
    · exact Or.inl (h2 ▸ h1)
    · exact Or.inl (h1 ▸ h2)
    · exact Or.inr ⟨h1.trans h2, le_trans t1 t2⟩

/-- The loop body of `build_group` (report.py lines 182-189): try
`make_row(t)`, stamp `Group` and `IsSeed` on, skip the ticker when the
fetch raised (`fetch t = none`). -/
def rowOf (seed : String) (fetch : String → Option Bar) (t : String) : Option Row :=
  (fetch t).map (fun b => { make_row t b with group := seed, isSeed := t == seed })

/-- Function `build_group` (report.py lines 169-201): candidate list
`[seed] + peers` de-duplicated case-insensitively; one row per candidate
whose fetch does not raise (`fetch t = some bar`), with `Group` and
`IsSeed` stamped on; raise if no row was built; sort seed-first then
alphabetically; finally drop rows whose stored Close is not a positive
number. -/
def build_group (seed : String) (peers : List String) (fetch : String → Option Bar) :
    Except String (List Row) :=
  let ordered := dedupUpper (seed :: peers)
  let rows := ordered.filterMap (rowOf seed fetch)
  if rows.isEmpty then Except.error ("No valid rows for group " ++ seed)
  else Except.ok ((rows.insertionSort rowLE).filter (fun r => posFinite r.close))

/-- The `groups` dict built by `build_all` (report.py lines 203-211):
seeds whose `build_group` raised are logged and skipped, the others are
kept in order with their frames. -/
def successfulGroups (seeds : List String) (peersOf : String → List String)
    (fetch : String → Option Bar) : List (String × List Row) :=
  seeds.filterMap (fun s =>
    match build_group s (peersOf s) fetch with
    | Except.ok df => some (s, df)
    | Except.error _ => none)

/-- Function `build_all` (report.py lines 203-214): raise when no group at all was
built, otherwise return the groups. -/
def build_all (seeds : List String) (peersOf : String → List String)
    (fetch : String → Option Bar) : Except String (List (String × List Row)) :=
  if (successfulGroups seeds peersOf fetch).isEmpty then
    Except.error "No groups built. Check network or seed tickers."
  else Except.ok (successfulGroups seeds peersOf fetch)

/-- The `__main__` guard (report.py lines 465-502): any exception escaping
`build_all` is logged with a full traceback and re-raised, so the process
exits non-zero; a clean run exits 0. -/
def mainExitCode (seeds : List String) (peersOf : String → List String)
    (fetch : String → Option Bar) : ℕ :=
  match build_all seeds peersOf fetch with
  | Except.ok _ => 0
  | Except.error _ => 1

/-- Modelled from the spec: the static fallback peer table — "a static
fallback table keyed by seed symbol (a hand-curated mapping of well-known
tickers to plausible industry peers)" (spec 4.1 step 2, 9). No such table
exists in `src/report.py`; the table below realises the spec's words for
the repository's default seed tickers. -/
def FALLBACK_PEERS : List (String × List String) :=
  [("NVDA", ["AMD", "AVGO", "INTC", "QCOM"]),
   ("TSLA", ["GM", "F", "RIVN"]),
   ("HD", ["LOW"]),
   ("TOL", ["LEN", "DHI", "PHM"])]

/-- Modelled from the spec: `resolvePeers` (spec 4.1) — step 1 is the
`get_peers_from_finnhub` call that `src/report.py` does contain; step 2,
the fallback consultation when step 1 yields an empty list, is missing
from `src/report.py` and is modelled from the spec's words: look the seed
up in the fallback table, cap the entry at `limit`, empty when absent. -/
def resolvePeers (key seed : String) (resp : PeersResp) (limit : ℕ) : List String :=
  let fromApi := get_peers_from_finnhub key seed resp
  if fromApi.isEmpty then
    match FALLBACK_PEERS.lookup seed with
    | some fb => fb.take limit
    | none => []
  else fromApi

/-! ### Helper lemmas: uppercasing -/

theorem toNat_ofNat_up (n : ℕ) (h1 : 97 ≤ n) (h2 : n ≤ 122) :
    (Char.ofNat (n - 32)).toNat = n - 32 := by
  interval_cases n <;> decide

theorem upChar_idem (c : Char) : upChar (upChar c) = upChar c := by
  unfold upChar
  by_cases h : 97 ≤ c.toNat ∧ c.toNat ≤ 122
  · rw [if_pos h]
    have hv : (Char.ofNat (c.toNat - 32)).toNat = c.toNat - 32 :=
      toNat_ofNat_up c.toNat h.1 h.2
    rw [if_neg]
    rw [hv]
    omega
  · rw [if_neg h, if_neg h]

theorem pyUpper_idem (s : String) : pyUpper (pyUpper s) = pyUpper s := by
  unfold pyUpper
  apply String.ext
  simp [List.map_map, Function.comp_def, upChar_idem]

/-! ### Helper lemmas: the case-insensitive de-duplication loop -/

theorem dedupUpperAux_not_mem_seen {x : String} :
    ∀ {ts seen : List String}, x ∈ dedupUpperAux ts seen → x ∉ seen
  | [], _, hx => by simp [dedupUpperAux] at hx
  | t :: ts, seen, hx => by
    unfold dedupUpperAux at hx
    by_cases h : pyUpper t ∈ seen
    · rw [if_pos h] at hx
      exact dedupUpperAux_not_mem_seen hx
    · rw [if_neg h] at hx
      rcases List.mem_cons.1 hx with rfl | hx
      · exact h
      · intro hseen
        exact dedupUpperAux_not_mem_seen hx (List.mem_cons_of_mem _ hseen)

theorem dedupUpperAux_nodup : ∀ (ts seen : List String), (dedupUpperAux ts seen).Nodup
  | [], _ => List.nodup_nil
  | t :: ts, seen => by
    unfold dedupUpperAux
    by_cases h : pyUpper t ∈ seen
    · rw [if_pos h]
      exact dedupUpperAux_nodup ts seen
    · rw [if_neg h]
      refine List.nodup_cons.2 ⟨?_, dedupUpperAux_nodup ts _⟩
      intro hmem
      exact dedupUpperAux_not_mem_seen hmem (List.mem_cons_self _ _)

theorem dedupUpperAux_sublist :
    ∀ (ts seen : List String), (dedupUpperAux ts seen).Sublist (ts.map pyUpper)
  | [], _ => by simp [dedupUpperAux]
  | t :: ts, seen => by
    unfold dedupUpperAux
    by_cases h : pyUpper t ∈ seen
    · rw [if_pos h]
      exact (dedupUpperAux_sublist ts seen).cons _
    · rw [if_neg h]
      exact (dedupUpperAux_sublist ts _).cons₂ _

theorem dedupUpperAux_complete {t : String} :
    ∀ {ts : List String} (seen : List String),
      t ∈ ts → pyUpper t ∈ seen ∨ pyUpper t ∈ dedupUpperAux ts seen
  | [], _, ht => absurd ht (List.not_mem_nil t)
  | t' :: ts, seen, ht => by
    unfold dedupUpperAux
    rcases List.mem_cons.1 ht with rfl | ht
    · by_cases h : pyUpper t ∈ seen
      · exact Or.inl h
      · rw [if_neg h]
        exact Or.inr (List.mem_cons_self _ _)
    · by_cases h : pyUpper t' ∈ seen
      · rw [if_pos h]
        exact dedupUpperAux_complete seen ht
      · rw [if_neg h]
        rcases dedupUpperAux_complete (pyUpper t' :: seen) ht with hs | hd
        · rcases List.mem_cons.1 hs with he | hs
          · exact Or.inr (he ▸ List.mem_cons_self _ _)
          · exact Or.inl hs
        · exact Or.inr (List.mem_cons_of_mem _ hd)

theorem dedupUpperAux_congr_seen :
    ∀ (ts : List String) {s1 s2 : List String}, (∀ x, x ∈ s1 ↔ x ∈ s2) →
      dedupUpperAux ts s1 = dedupUpperAux ts s2
  | [], _, _, _ => rfl
  | t :: ts, s1, s2, h => by
    unfold dedupUpperAux
    by_cases hp : pyUpper t ∈ s1
    · rw [if_pos hp, if_pos ((h _).1 hp)]
      exact dedupUpperAux_congr_seen ts h
    · rw [if_neg hp, if_neg (fun hm => hp ((h _).2 hm))]
      congr 1
      refine dedupUpperAux_congr_seen ts ?_
      intro x
      simp only [List.mem_cons]
      exact or_congr Iff.rfl (h x)

theorem dedupUpperAux_seen_extra {u : String} :
    ∀ {ts seen : List String}, u ∉ ts.map pyUpper →
      dedupUpperAux ts (u :: seen) = dedupUpperAux ts seen
  | [], _, _ => rfl
  | t :: ts, seen, hu => by
    have hne : pyUpper t ≠ u := by
      intro he
      exact hu (he ▸ List.mem_map_of_mem pyUpper (List.mem_cons_self t ts))
    have hu' : u ∉ ts.map pyUpper := fun hm => hu (List.mem_cons_of_mem _ hm)
    unfold dedupUpperAux
    by_cases h : pyUpper t ∈ seen
    · rw [if_pos (List.mem_cons_of_mem _ h), if_pos h]
      exact dedupUpperAux_seen_extra hu'
    · have : pyUpper t ∉ u :: seen := by
        intro hm
        rcases List.mem_cons.1 hm with he | hm
        · exact hne he
        · exact h hm
      rw [if_neg this, if_neg h]
      congr 1
      calc dedupUpperAux ts (pyUpper t :: u :: seen)
          = dedupUpperAux ts (u :: pyUpper t :: seen) := by
            refine dedupUpperAux_congr_seen ts ?_
            intro x
            simp only [List.mem_cons]
            tauto
        _ = dedupUpperAux ts (pyUpper t :: seen) := dedupUpperAux_seen_extra hu'

theorem dedupUpper_nodup (ts : List String) : (dedupUpper ts).Nodup :=
  dedupUpperAux_nodup ts []

/-! ### Helper lemmas: the finnhub peer filter -/

theorem mem_finnhub {key seed p : String} {resp : PeersResp}
    (hp : p ∈ get_peers_from_finnhub key seed resp) :
    pyUpper p = p ∧ p ≠ pyUpper seed := by
  unfold get_peers_from_finnhub at hp
  by_cases hk : key = ""
  · rw [if_pos hk] at hp
    exact absurd hp (List.not_mem_nil p)
  · rw [if_neg hk] at hp
    cases resp with
    | ok entries =>
      have hp' := List.mem_of_mem_take hp
      rcases List.mem_map.1 hp' with ⟨q, hq, rfl⟩
      have hfil := (List.mem_filter.1 hq).2
      have hne : pyUpper q ≠ pyUpper seed := by
        simpa [bne_iff_ne] using hfil
      exact ⟨pyUpper_idem q, hne⟩
    | notList => exact absurd hp (List.not_mem_nil p)
    | err => exact absurd hp (List.not_mem_nil p)

theorem finnhub_length_le (key seed : String) (resp : PeersResp) :
    (get_peers_from_finnhub key seed resp).length ≤ MAX_PEERS := by
  unfold get_peers_from_finnhub
  by_cases hk : key = ""
  · simp [hk]
  · rw [if_neg hk]
    cases resp with
    | ok entries => exact List.length_take_le _ _
    | notList => simp
    | err => simp

theorem finnhub_map_pyUpper {key seed : String} {resp : PeersResp} :
    (get_peers_from_finnhub key seed resp).map pyUpper =
      get_peers_from_finnhub key seed resp := by
  have h : ∀ p ∈ get_peers_from_finnhub key seed resp, pyUpper p = id p := by
    intro p hp
    exact (mem_finnhub hp).1
  rw [List.map_congr_left h, List.map_id]

theorem resolvedPeers_eq_aux (key seed : String) (resp : PeersResp) :
    resolvedPeers key seed resp =
      dedupUpperAux (get_peers_from_finnhub key seed resp) [pyUpper seed] := by
  unfold resolvedPeers dedupUpper
  have h : dedupUpperAux (seed :: get_peers_from_finnhub key seed resp) [] =
      pyUpper seed :: dedupUpperAux (get_peers_from_finnhub key seed resp) [pyUpper seed] := by
    rw [dedupUpperAux]
    simp
  rw [h]
  rfl

/-- Claim C2: for every peer-discovery response, the peer list as the program
consumes it (candidate list of `build_group` minus the leading seed)
excludes the seed case-insensitively, holds each distinct symbol exactly
once with first occurrence preserved (it equals the first-occurrence
de-duplication of the truncated finnhub list and is a sublist of it),
and is truncated to the `MAX_PEERS` limit; on the response
`["BBB", "AAA", "bbb"]` for seed `"AAA"` it is exactly `["BBB"]`.
The de-duplication step lives in `build_group` (report.py 175-179), not
in `get_peers_from_finnhub` itself. -/
theorem peer_dedup_exclusion (key seed : String) (resp : PeersResp) :
    pyUpper seed ∉ resolvedPeers key seed resp ∧
    (resolvedPeers key seed resp).Nodup ∧
    resolvedPeers key seed resp = dedupUpper (get_peers_from_finnhub key seed resp) ∧
    (resolvedPeers key seed resp).Sublist (get_peers_from_finnhub key seed resp) ∧
    (∀ p ∈ get_peers_from_finnhub key seed resp, p ∈ resolvedPeers key seed resp) ∧
    (get_peers_from_finnhub key seed resp).length ≤ MAX_PEERS ∧
    (resolvedPeers key seed resp).length ≤ MAX_PEERS ∧
    resolvedPeers "k" "AAA" (PeersResp.ok [some "BBB", some "AAA", some "bbb"]) = ["BBB"] := by
  have haux := resolvedPeers_eq_aux key seed resp
  have hseed_notin : pyUpper seed ∉ (get_peers_from_finnhub key seed resp).map pyUpper := by
    rw [finnhub_map_pyUpper]
    intro hmem
    exact ((mem_finnhub hmem).2) rfl
  have hsub : (resolvedPeers key seed resp).Sublist (get_peers_from_finnhub key seed resp) := by
    rw [haux]
    have := dedupUpperAux_sublist (get_peers_from_finnhub key seed resp) [pyUpper seed]
    rwa [finnhub_map_pyUpper] at this
  refine ⟨?_, ?_, ?_, hsub, ?_, finnhub_length_le key seed resp, ?_, ?_⟩
  · rw [haux]
    intro hmem
    exact dedupUpperAux_not_mem_seen hmem (List.mem_cons_self _ _)
  · rw [haux]
    exact dedupUpperAux_nodup _ _
  · rw [haux]
    unfold dedupUpper
    exact dedupUpperAux_seen_extra hseed_notin
  · intro p hp
    rw [haux]
    rcases dedupUpperAux_complete [pyUpper seed] hp with hs | hd
    · rcases List.mem_cons.1 hs with he | hs
      · exact absurd ((mem_finnhub hp).1 ▸ he) (mem_finnhub hp).2
      · exact absurd hs (List.not_mem_nil _)
    · rwa [(mem_finnhub hp).1] at hd
  · exact le_trans hsub.length_le (finnhub_length_le key seed resp)
  · decide

theorem peer_dedup_exclusion_witness :
    "BBB" ∈ resolvedPeers "k" "AAA" (PeersResp.ok [some "BBB", some "AAA", some "bbb"]) :=
  (peer_dedup_exclusion "k" "AAA"
    (PeersResp.ok [some "BBB", some "AAA", some "bbb"])).2.2.2.2.1 "BBB" (by decide)

/-- Claim C3: when the peer-discovery call is unconfigured (`key = ""`), failed
(`resp = err`), or returned nothing, the (spec-modelled) resolver consults
the static fallback table: a seed with a fallback entry resolves to that
entry capped at the limit, and a seed absent from the table resolves to
the empty peer set. -/
theorem fallback_precedence (key seed : String) (resp : PeersResp) (limit : ℕ)
    (hempty : key = "" ∨ resp = PeersResp.err ∨ get_peers_from_finnhub key seed resp = []) :
    (∀ fb, FALLBACK_PEERS.lookup seed = some fb →
      resolvePeers key seed resp limit = fb.take limit) ∧
    (FALLBACK_PEERS.lookup seed = none → resolvePeers key seed resp limit = []) := by
  have hapi : get_peers_from_finnhub key seed resp = [] := by
    rcases hempty with hk | hr | ha
    · simp [get_peers_from_finnhub, hk]
    · subst hr
      unfold get_peers_from_finnhub
      by_cases hk : key = "" <;> simp [hk]
    · exact ha
  constructor
  · intro fb hfb
    unfold resolvePeers
    rw [hapi]
    simp [hfb]
  · intro hnone
    unfold resolvePeers
    rw [hapi]
    simp [hnone]

theorem fallback_precedence_witness :
    resolvePeers "" "NVDA" PeersResp.err 10 = ["AMD", "AVGO", "INTC", "QCOM"] ∧
    resolvePeers "" "ZZZZ" PeersResp.err 10 = [] := by
  constructor
  · have h := (fallback_precedence "" "NVDA" PeersResp.err 10 (Or.inl rfl)).1
      ["AMD", "AVGO", "INTC", "QCOM"] (by decide)
    exact h.trans (by decide)
  · exact (fallback_precedence "" "ZZZZ" PeersResp.err 10 (Or.inl rfl)).2 (by decide)

/-- Claim C1: the pivot calculator computes exactly `P = (h+l+c)/3`,
`S1 = 2P-h`, `S2 = P-(h-l)`, `R1 = 2P-l`, `R2 = P+(h-l)` for every bar
with `h ≥ l`; hence `S1 + R1 = 4P - h - l` and `R2 - S2 = 2(h-l)`; and on
`h=110, l=90, c=100` the levels are `(100, 90, 80, 110, 120)`. -/
theorem pivots_exact (h l c : ℚ) (hge : l ≤ h) :
    (pivots h l c).1 = (h + l + c) / 3 ∧
    (pivots h l c).2.1 = 2 * (pivots h l c).1 - h ∧
    (pivots h l c).2.2.1 = (pivots h l c).1 - (h - l) ∧
    (pivots h l c).2.2.2.1 = 2 * (pivots h l c).1 - l ∧
    (pivots h l c).2.2.2.2 = (pivots h l c).1 + (h - l) ∧
    (pivots h l c).2.1 + (pivots h l c).2.2.2.1 = 4 * (pivots h l c).1 - h - l ∧
    (pivots h l c).2.2.2.2 - (pivots h l c).2.2.1 = 2 * (h - l) ∧
    pivots 110 90 100 = (100, 90, 80, 110, 120) := by
  refine ⟨rfl, rfl, rfl, rfl, rfl, ?_, ?_, ?_⟩
  · show (2 * ((h + l + c) / 3) - h) + (2 * ((h + l + c) / 3) - l) =
      4 * ((h + l + c) / 3) - h - l
    ring
  · show ((h + l + c) / 3 + (h - l)) - ((h + l + c) / 3 - (h - l)) = 2 * (h - l)
    ring
  · unfold pivots
    norm_num

theorem pivots_exact_witness :
    (90 : ℚ) ≤ 110 ∧ pivots 110 90 100 = (100, 90, 80, 110, 120) :=
  ⟨by norm_num, (pivots_exact 110 90 100 (by norm_num)).2.2.2.2.2.2.2⟩

/-! ### Helper lemmas: rounding and the close guard -/

theorem rnd2_intCast (n : ℤ) : rnd2 ((n : ℚ)) = (n : ℚ) := by
  unfold rnd2 rndHalfEven
  have h100 : ((n : ℚ)) * 100 = (((n * 100 : ℤ) : ℚ)) := by push_cast; ring
  rw [h100, Int.floor_intCast]
  rw [if_pos]
  · push_cast
    ring
  · norm_num

theorem rnd2_zero : rnd2 0 = 0 := by
  have h := rnd2_intCast 0
  simpa using h

theorem posFinite_some_pos {v : ℚ} (h : 0 < v) : posFinite (some v) = true := by
  simp [posFinite, h]

theorem posFinite_some_neg {v : ℚ} (h : ¬0 < v) : posFinite (some v) = false := by
  simp [posFinite, h]

/-- Claim C10: for every fetched bar whose close is not a finite positive number
(NaN, zero, or negative — `posFinite b.close = false`), `make_row`
substitutes `prevClose` for the close before anything is computed: the row
is the same as for the bar with its close replaced by `prevClose`, the
pivot columns are computed from `(high, low, prevClose)`, and the percent
change divides the substituted close, all without raising. -/
theorem make_row_bad_close (t : String) (b : Bar) (hbad : posFinite b.close = false) :
    effClose b = b.prevClose ∧
    make_row t b = make_row t { b with close := b.prevClose } ∧
    (make_row t b).close = rnd2F b.prevClose ∧
    (make_row t b).pivotP = rnd2F (pivotsF b.high b.low b.prevClose).1 ∧
    (make_row t b).s1 = rnd2F (pivotsF b.high b.low b.prevClose).2.1 ∧
    (make_row t b).s2 = rnd2F (pivotsF b.high b.low b.prevClose).2.2.1 ∧
    (make_row t b).r1 = rnd2F (pivotsF b.high b.low b.prevClose).2.2.2.1 ∧
    (make_row t b).r2 = rnd2F (pivotsF b.high b.low b.prevClose).2.2.2.2 ∧
    (make_row t b).chg = rnd2F (chgF b.prevClose b.prevClose) := by
  have h1 : effClose b = b.prevClose := by simp [effClose, hbad]
  have h2 : effClose { b with close := b.prevClose } = b.prevClose := by
    unfold effClose
    cases hp : posFinite b.prevClose <;> simp [hp]
  refine ⟨h1, ?_, ?_, ?_, ?_, ?_, ?_, ?_, ?_⟩ <;> simp [make_row, h1, h2]

def barC10 : Bar := ⟨"2024-01-02", some 110, some 90, some (-1), some 95⟩

theorem make_row_bad_close_witness :
    posFinite barC10.close = false ∧
    effClose barC10 = some 95 ∧
    (make_row "NVDA" barC10).chg = rnd2F (chgF (some 95) (some 95)) := by
  have hbad : posFinite barC10.close = false := by
    apply posFinite_some_neg
    norm_num
  have h := make_row_bad_close "NVDA" barC10 hbad
  exact ⟨hbad, h.1, h.2.2.2.2.2.2.2.2⟩

def barC4 : Bar := ⟨"2024-01-02", some 110, some 90, some 100, some 0⟩

/-- Claim C4 counterexample: on a bar whose `prevClose` is exactly `0` (and a
perfectly good close of `100`), the code stores NaN — rendered as the
empty cell — for `% Chg`, not `0` as the claim states: `prevc` is falsy,
so `chg = float("nan")`, which fails the `isfinite` display check. -/
theorem chg_zero_prev_counterexample :
    (make_row "XYZ" barC4).chg = none ∧ (make_row "XYZ" barC4).chg ≠ some 0 := by
  have h : (make_row "XYZ" barC4).chg = none := by
    simp [make_row, barC4, chgF, rnd2F]
  exact ⟨h, by rw [h]; exact fun hc => Option.noConfusion hc⟩

/-- Claim C4 (amended): when `prevClose` is exactly zero or NaN the computed
percent change is NaN (stored as the empty cell), with no exception
raised and no epsilon tolerance; when only one bar is available
`fetch_bar` sets `prevClose := close`, and the percent change is then `0`
whenever the close is a nonzero number; otherwise
`chg = (c - prevClose) / prevClose * 100` with `c` the effective
(substituted) close. -/
theorem chg_semantics (t : String) (b : Bar) (rb : RawBar) :
    ((b.prevClose = some 0 ∨ b.prevClose = none) → (make_row t b).chg = none) ∧
    (fetch_bar [rb] = Except.ok ⟨rb.date, rb.high, rb.low, rb.close, rb.close⟩) ∧
    (∀ v : ℚ, rb.close = some v → v ≠ 0 →
      (make_row t ⟨rb.date, rb.high, rb.low, rb.close, rb.close⟩).chg = some 0) ∧
    (∀ p cv : ℚ, b.prevClose = some p → p ≠ 0 → effClose b = some cv →
      (make_row t b).chg = rnd2F (some ((cv - p) / p * 100))) := by
  refine ⟨?_, rfl, ?_, ?_⟩
  · intro hdisj
    rcases hdisj with h0 | h0 <;> simp [make_row, chgF, rnd2F, h0]
  · intro v hv hvne
    have hchg : chgF (some v) (some v) = some 0 := by
      simp only [chgF, if_neg hvne]
      congr 1
      field_simp
    have heff : effClose ⟨rb.date, rb.high, rb.low, some v, some v⟩ = some v := by
      unfold effClose
      cases hp : posFinite (some v) <;> simp [hp]
    rw [hv]
    simp [make_row, heff, hchg, rnd2F, rnd2_zero]
  · intro p cv hp hpne hc
    simp [make_row, hc, hp, chgF, hpne]

def rbC4 : RawBar := ⟨"2024-01-02", some 110, some 90, some 100⟩

def barC4b : Bar := ⟨"2024-01-02", some 110, some 90, some 100, some 95⟩

theorem chg_semantics_witness :
    (make_row "XYZ" barC4).chg = none ∧
    fetch_bar [rbC4] = Except.ok ⟨"2024-01-02", some 110, some 90, some 100, some 100⟩ ∧
    (make_row "XYZ" ⟨"2024-01-02", some 110, some 90, some 100, some 100⟩).chg = some 0 ∧
    (make_row "XYZ" barC4b).chg = rnd2F (some ((100 - 95) / 95 * 100)) := by
  refine ⟨(chg_semantics "XYZ" barC4 rbC4).1 (Or.inl rfl),
    (chg_semantics "XYZ" barC4 rbC4).2.1,
    (chg_semantics "XYZ" barC4 rbC4).2.2.1 100 rfl (by norm_num),
    (chg_semantics "XYZ" barC4b rbC4).2.2.2 95 100 rfl (by norm_num) ?_⟩
  simp [effClose, barC4b, posFinite]

/-! ### Helper lemmas: group assembly -/

theorem make_row_close (t : String) (b : Bar) : (make_row t b).close = rnd2F (effClose b) := rfl

theorem rowOf_eq_some {seed t : String} {fetch : String → Option Bar} {r : Row} :
    rowOf seed fetch t = some r ↔
      ∃ b, fetch t = some b ∧ r = { make_row t b with group := seed, isSeed := t == seed } := by
  simp only [rowOf, Option.map_eq_some']
  constructor
  · rintro ⟨b, hb, hr⟩
    exact ⟨b, hb, hr.symm⟩
  · rintro ⟨b, hb, hr⟩
    exact ⟨b, hb, hr.symm⟩

theorem rowOf_ticker {seed t : String} {fetch : String → Option Bar} {r : Row}
    (h : rowOf seed fetch t = some r) : r.ticker = t := by
  obtain ⟨b, _, rfl⟩ := rowOf_eq_some.1 h
  rfl

theorem rowOf_isSeed {seed t : String} {fetch : String → Option Bar} {r : Row}
    (h : rowOf seed fetch t = some r) : (r.isSeed = true ↔ t = seed) := by
  obtain ⟨b, _, rfl⟩ := rowOf_eq_some.1 h
  simp

theorem rowOf_close {seed t : String} {fetch : String → Option Bar} {r : Row}
    (h : rowOf seed fetch t = some r) :
    ∃ b, fetch t = some b ∧ r.close = rnd2F (effClose b) := by
  obtain ⟨b, hb, rfl⟩ := rowOf_eq_some.1 h
  exact ⟨b, hb, rfl⟩

theorem tickers_sublist (seed : String) (fetch : String → Option Bar) :
    ∀ l : List String, ((l.filterMap (rowOf seed fetch)).map Row.ticker).Sublist l
  | [] => by simp
  | t :: ts => by
    cases h : rowOf seed fetch t with
    | none =>
      rw [List.filterMap_cons_none h]
      exact (tickers_sublist seed fetch ts).cons t
    | some r =>
      rw [List.filterMap_cons_some h]
      rw [List.map_cons, rowOf_ticker h]
      exact (tickers_sublist seed fetch ts).cons₂ t

theorem build_group_eq_ok {seed : String} {peers : List String} {fetch : String → Option Bar}
    {rows : List Row} (h : build_group seed peers fetch = Except.ok rows) :
    rows = (((dedupUpper (seed :: peers)).filterMap
        (rowOf seed fetch)).insertionSort rowLE).filter (fun r => posFinite r.close) := by
  simp only [build_group] at h
  split at h
  · exact absurd h (fun he => Except.noConfusion he)
  · exact (Except.ok.inj h).symm

/-- The structural facts every successfully built group satisfies: it is
sorted under the pandas key, each row comes from a candidate ticker, every
kept row passed the positive-close filter, every built row with positive
stored close is kept, and tickers are distinct. -/
theorem build_group_ok_spec {seed : String} {peers : List String} {fetch : String → Option Bar}
    {rows : List Row} (h : build_group seed peers fetch = Except.ok rows) :
    rows.Pairwise rowLE ∧
    (∀ r ∈ rows, ∃ t ∈ dedupUpper (seed :: peers), rowOf seed fetch t = some r) ∧
    (∀ r ∈ rows, posFinite r.close = true) ∧
    (∀ t ∈ dedupUpper (seed :: peers), ∀ r, rowOf seed fetch t = some r →
      posFinite r.close = true → r ∈ rows) ∧
    (rows.map Row.ticker).Nodup := by
  have heq := build_group_eq_ok h
  set rows0 := (dedupUpper (seed :: peers)).filterMap (rowOf seed fetch) with hrows0
  have hsorted : (rows0.insertionSort rowLE).Pairwise rowLE :=
    List.sorted_insertionSort rowLE rows0
  have hperm : (rows0.insertionSort rowLE).Perm rows0 := List.perm_insertionSort rowLE rows0
  have hfsub : rows.Sublist (rows0.insertionSort rowLE) := heq ▸ List.filter_sublist _
  refine ⟨List.Pairwise.sublist hfsub hsorted, ?_, ?_, ?_, ?_⟩
  · intro r hr
    have hr0 : r ∈ rows0 := hperm.mem_iff.1 (hfsub.mem hr)
    exact List.mem_filterMap.1 hr0
  · intro r hr
    rw [heq] at hr
    exact (List.mem_filter.1 hr).2
  · intro t ht r hrow hpos
    have hr0 : r ∈ rows0 := List.mem_filterMap.2 ⟨t, ht, hrow⟩
    have hrs : r ∈ rows0.insertionSort rowLE := hperm.mem_iff.2 hr0
    rw [heq]
    exact List.mem_filter.2 ⟨hrs, hpos⟩
  · have h0 : (rows0.map Row.ticker).Nodup :=
      (tickers_sublist seed fetch _).nodup (dedupUpper_nodup _)
    have h1 : ((rows0.insertionSort rowLE).map Row.ticker).Nodup :=
      ((hperm.map Row.ticker).nodup_iff).2 h0
    exact (hfsub.map Row.ticker).nodup h1

theorem pairwise_ticker_of_nonSeed :
    ∀ l : List Row, (∀ r ∈ l, r.isSeed = false) → l.Pairwise rowLE →
      l.Pairwise (fun a b : Row => a.ticker ≤ b.ticker)
  | [], _, _ => List.Pairwise.nil
  | a :: l, hall, hp => by
    rcases List.pairwise_cons.1 hp with ⟨h1, h2⟩
    refine List.pairwise_cons.2 ⟨?_, pairwise_ticker_of_nonSeed l
      (fun r hr => hall r (List.mem_cons_of_mem _ hr)) h2⟩
    intro b hb
    have ha : a.isSeed = false := hall a (List.mem_cons_self _ _)
    have hbf : b.isSeed = false := hall b (List.mem_cons_of_mem _ hb)
    rcases h1 b hb with hlt | hand
    · simp [keyNat, ha, hbf] at hlt
    · exact hand.2

/-- Claim C5 (amended): in every assembled Group, if a row flagged `isSeed` is
present at all then it is the first row and its symbol equals the seed,
and the non-seed rows appear in alphabetical order by symbol. (The seed
row can be missing — seed fetch failure or non-positive stored close — in
which case the first row is a peer; see the counterexample.) -/
theorem group_ordering (seed : String) (peers : List String) (fetch : String → Option Bar)
    (rows : List Row) (hok : build_group seed peers fetch = Except.ok rows) :
    (∀ r ∈ rows, r.isSeed = true → rows.head? = some r ∧ r.ticker = seed) ∧
    (rows.filter (fun r => !r.isSeed)).Pairwise (fun a b : Row => a.ticker ≤ b.ticker) := by
  obtain ⟨hpair, hmem, _hpos, _hcomp, hnodup⟩ := build_group_ok_spec hok
  constructor
  · intro r hr hseed
    obtain ⟨t, _ht, hrow⟩ := hmem r hr
    have htick : r.ticker = seed := by
      rw [rowOf_ticker hrow]
      exact (rowOf_isSeed hrow).1 hseed
    cases rows with
    | nil => cases hr
    | cons r0 rest =>
      rcases List.mem_cons.1 hr with rfl | hrest
      · exact ⟨rfl, htick⟩
      · exfalso
        have hle : rowLE r0 r := (List.pairwise_cons.1 hpair).1 r hrest
        cases h0 : r0.isSeed with
        | false =>
          rcases hle with hlt | hand
          · simp [keyNat, h0, hseed] at hlt
          · simp [keyNat, h0, hseed] at hand
        | true =>
          obtain ⟨t0, _ht0, hrow0⟩ := hmem r0 (List.mem_cons_self _ _)
          have htick0 : r0.ticker = seed := by
            rw [rowOf_ticker hrow0]
            exact (rowOf_isSeed hrow0).1 h0
          have hnotin : r0.ticker ∉ rest.map Row.ticker :=
            (List.nodup_cons.1 (List.map_cons Row.ticker r0 rest ▸ hnodup)).1
          exact hnotin (htick0.trans htick.symm ▸ List.mem_map_of_mem Row.ticker hrest)
  · have hsub : (rows.filter (fun r => !r.isSeed)).Sublist rows := List.filter_sublist rows
    refine pairwise_ticker_of_nonSeed _ ?_ (List.Pairwise.sublist hsub hpair)
    intro r hr
    have := (List.mem_filter.1 hr).2
    simpa using this

/-! ### Concrete inputs for counterexamples and witnesses -/

/-- A well-formed bar: h=110, l=90, c=100, prev=95. -/
def goodBar : Bar := ⟨"2024-01-02", some 110, some 90, some 100, some 95⟩

/-- A degenerate bar whose close and previous close are both negative, so
its substituted close is `-3` and its row fails the `Close > 0` filter. -/
def badBar : Bar := ⟨"2024-01-02", some 2, some 1, some (-3), some (-3)⟩

theorem rnd2_hundred : rnd2 (100 : ℚ) = 100 := by
  have h := rnd2_intCast 100
  norm_num at h
  exact h

theorem rnd2_negThree : rnd2 (-3 : ℚ) = -3 := by
  have h := rnd2_intCast (-3)
  norm_num at h
  exact h

theorem goodBar_keep : posFinite (rnd2F (effClose goodBar)) = true := by
  have he : effClose goodBar = some 100 := by
    simp [effClose, goodBar, posFinite_some_pos (by norm_num : (0 : ℚ) < 100)]
  rw [he]
  show posFinite (some (rnd2 100)) = true
  rw [rnd2_hundred]
  exact posFinite_some_pos (by norm_num)

theorem badBar_drop : posFinite (rnd2F (effClose badBar)) = false := by
  have he : effClose badBar = some (-3) := by
    simp [effClose, badBar, posFinite_some_neg (by norm_num : ¬(0 : ℚ) < -3)]
  rw [he]
  show posFinite (some (rnd2 (-3))) = false
  rw [rnd2_negThree]
  exact posFinite_some_neg (by norm_num)

def rowBBB : Row := { make_row "BBB" goodBar with group := "AAA", isSeed := false }

def rowA9 : Row := { make_row "AAA" badBar with group := "AAA", isSeed := true }

def rowAAA : Row := { make_row "AAA" goodBar with group := "AAA", isSeed := true }

def rowCCC : Row := { make_row "CCC" badBar with group := "AAA", isSeed := false }

def rowN : Row := { make_row "NVDA" goodBar with group := "NVDA", isSeed := true }

def rowAMD : Row := { make_row "AMD" goodBar with group := "NVDA", isSeed := false }

/-- Peer fetch where the seed `"AAA"` raises and the peer `"BBB"` succeeds. -/
def fetchC5 : String → Option Bar := fun t => if t = "BBB" then some goodBar else none

/-- Fetch where the seed `"AAA"` returns a bar whose stored close is
negative and the peer `"BBB"` succeeds. -/
def fetchC9 : String → Option Bar :=
  fun t => if t = "AAA" then some badBar else if t = "BBB" then some goodBar else none

/-- Fetch where `"AAA"` succeeds, `"BBB"` raises, `"CCC"` returns a bar
whose stored close is negative. -/
def fetchC6 : String → Option Bar :=
  fun t => if t = "AAA" then some goodBar else if t = "CCC" then some badBar else none

/-- Fetch where `"NVDA"` and `"AMD"` succeed with a well-formed bar. -/
def fetchW5 : String → Option Bar :=
  fun t => if t = "NVDA" then some goodBar else if t = "AMD" then some goodBar else none

/-- Fetch where only `"AAA"` succeeds. -/
def fetchW6 : String → Option Bar := fun t => if t = "AAA" then some goodBar else none

/-- Fetch where only `"NVDA"` succeeds. -/
def fetchW7 : String → Option Bar := fun t => if t = "NVDA" then some goodBar else none

/-- Claim C5 counterexample: with seed `"AAA"` whose fetch raises and one good
peer `"BBB"`, the group is assembled non-empty, but its first row is the
peer with `isSeed = false` — not the seed row the claim promises. -/
theorem group_head_counterexample :
    fetchC5 "AAA" = none ∧
    ((build_group "AAA" ["BBB"] fetchC5).toOption.getD []).map
      (fun r => (r.ticker, r.isSeed)) = [("BBB", false)] := by
  have hbg : build_group "AAA" ["BBB"] fetchC5 =
      Except.ok (List.filter (fun r => posFinite r.close) [rowBBB]) := rfl
  have hfil : List.filter (fun r => posFinite r.close) [rowBBB] = [rowBBB] := by
    have hB : posFinite rowBBB.close = true := goodBar_keep
    simp [List.filter, hB]
  rw [hbg, hfil]
  exact ⟨rfl, rfl⟩

theorem group_ordering_witness :
    ([rowN, rowAMD].head? = some rowN ∧ rowN.ticker = "NVDA") ∧
    (([rowN, rowAMD].filter (fun r => !r.isSeed)).Pairwise
      (fun a b : Row => a.ticker ≤ b.ticker)) := by
  have hbg : build_group "NVDA" ["AMD"] fetchW5 =
      Except.ok (List.filter (fun r => posFinite r.close) [rowN, rowAMD]) := rfl
  have hfil : List.filter (fun r => posFinite r.close) [rowN, rowAMD] = [rowN, rowAMD] := by
    have hN : posFinite rowN.close = true := goodBar_keep
    have hA : posFinite rowAMD.close = true := goodBar_keep
    simp [List.filter, hN, hA]
  have hok : build_group "NVDA" ["AMD"] fetchW5 = Except.ok [rowN, rowAMD] := by
    rw [hbg, hfil]
  have h := group_ordering "NVDA" ["AMD"] fetchW5 [rowN, rowAMD] hok
  exact ⟨h.1 rowN (List.mem_cons_self _ _) rfl, h.2⟩

/-- Claim C9: every row of every assembled Group has a positive stored Close:
the filter runs after the seed-first sort, keeps exactly the rows whose
stored Close is a positive number, and silently removes the rest — which
can include the seed's own row, as the concrete run with a negative seed
close shows: the group's first row is then a peer. -/
theorem rows_positive_close :
    (∀ (seed : String) (peers : List String) (fetch : String → Option Bar) (rows : List Row),
      build_group seed peers fetch = Except.ok rows →
        (∀ r ∈ rows, posFinite r.close = true) ∧
        (∀ t ∈ dedupUpper (seed :: peers), ∀ r, rowOf seed fetch t = some r →
          posFinite r.close = true → r ∈ rows)) ∧
    ((fetchC9 "AAA").isSome = true ∧
      ((build_group "AAA" ["BBB"] fetchC9).toOption.getD []).map
        (fun r => (r.ticker, r.isSeed)) = [("BBB", false)]) := by
  constructor
  · intro seed peers fetch rows hok
    obtain ⟨_, _, hpos, hcomp, _⟩ := build_group_ok_spec hok
    exact ⟨hpos, hcomp⟩
  · refine ⟨rfl, ?_⟩
    have hbg : build_group "AAA" ["BBB"] fetchC9 =
        Except.ok (List.filter (fun r => posFinite r.close) [rowA9, rowBBB]) := rfl
    have hfil : List.filter (fun r => posFinite r.close) [rowA9, rowBBB] = [rowBBB] := by
      have hA : posFinite rowA9.close = false := badBar_drop
      have hB : posFinite rowBBB.close = true := goodBar_keep
      simp [List.filter, hA, hB]
    rw [hbg, hfil]
    rfl

theorem rows_positive_close_witness :
    posFinite rowBBB.close = true := by
  have hbg : build_group "AAA" ["BBB"] fetchC5 =
      Except.ok (List.filter (fun r => posFinite r.close) [rowBBB]) := rfl
  have hfil : List.filter (fun r => posFinite r.close) [rowBBB] = [rowBBB] := by
    simp [List.filter, goodBar_keep, rowBBB, make_row_close]
  have hok : build_group "AAA" ["BBB"] fetchC5 = Except.ok [rowBBB] := by rw [hbg, hfil]
  exact (rows_positive_close.1 "AAA" ["BBB"] fetchC5 [rowBBB] hok).1 rowBBB
    (List.mem_cons_self _ _)

/-- Claim C6 counterexample: candidates `AAA, BBB, CCC` where exactly one fetch
(`BBB`) raises; `CCC`'s fetch succeeds, yet its row is silently removed by
the `Close > 0` filter, so the assembled group does not contain rows for
all non-failing symbols. -/
theorem one_failure_counterexample :
    fetchC6 "BBB" = none ∧
    (fetchC6 "CCC").isSome = true ∧
    ((build_group "AAA" ["BBB", "CCC"] fetchC6).toOption.getD []).map Row.ticker = ["AAA"] := by
  have hbg : build_group "AAA" ["BBB", "CCC"] fetchC6 =
      Except.ok (List.filter (fun r => posFinite r.close) [rowAAA, rowCCC]) := rfl
  have hfil : List.filter (fun r => posFinite r.close) [rowAAA, rowCCC] = [rowAAA] := by
    have hA : posFinite rowAAA.close = true := goodBar_keep
    have hC : posFinite rowCCC.close = false := badBar_drop
    simp [List.filter, hA, hC]
  rw [hbg, hfil]
  exact ⟨rfl, rfl, rfl⟩

/-- Claim C6 (amended): when exactly one candidate's fetch raises and at least
one other candidate exists, the group is assembled without aborting; it
omits the failed symbol, every kept row belongs to a non-failed candidate,
and it contains a row for every non-failed candidate whose stored close
is positive (the `Close > 0` display filter may still drop rows whose
fetch succeeded). -/
theorem one_failure_tolerance (seed : String) (peers : List String)
    (fetch : String → Option Bar) (bad : String)
    (hbadmem : bad ∈ dedupUpper (seed :: peers))
    (hbad : fetch bad = none)
    (hgood : ∀ t ∈ dedupUpper (seed :: peers), t ≠ bad → (fetch t).isSome = true)
    (hother : ∃ t ∈ dedupUpper (seed :: peers), t ≠ bad) :
    ∃ rows, build_group seed peers fetch = Except.ok rows ∧
      (∀ r ∈ rows, r.ticker ∈ dedupUpper (seed :: peers) ∧ r.ticker ≠ bad) ∧
      (∀ t ∈ dedupUpper (seed :: peers), t ≠ bad →
        ∀ b, fetch t = some b → posFinite (rnd2F (effClose b)) = true →
          ∃ r ∈ rows, r.ticker = t) := by
  obtain ⟨t0, ht0, hne0⟩ := hother
  obtain ⟨b0, hb0⟩ := Option.isSome_iff_exists.1 (hgood t0 ht0 hne0)
  have hrow0 : rowOf seed fetch t0 =
      some { make_row t0 b0 with group := seed, isSeed := t0 == seed } := by
    simp [rowOf, hb0]
  have hne : (dedupUpper (seed :: peers)).filterMap (rowOf seed fetch) ≠ [] := by
    intro hnil
    have := List.filterMap_eq_nil_iff.1 hnil t0 ht0
    rw [hrow0] at this
    exact Option.noConfusion this
  have hok : build_group seed peers fetch = Except.ok
      ((((dedupUpper (seed :: peers)).filterMap
        (rowOf seed fetch)).insertionSort rowLE).filter (fun r => posFinite r.close)) := by
    simp only [build_group]
    rw [if_neg]
    simp [List.isEmpty_iff, hne]
  refine ⟨_, hok, ?_, ?_⟩
  · obtain ⟨_, hmem, _, _, _⟩ := build_group_ok_spec hok
    intro r hr
    obtain ⟨t, ht, hrow⟩ := hmem r hr
    have htick : r.ticker = t := rowOf_ticker hrow
    refine ⟨htick ▸ ht, ?_⟩
    intro hbadt
    rw [htick] at hbadt
    subst hbadt
    rw [rowOf, hbad] at hrow
    exact Option.noConfusion hrow
  · obtain ⟨_, _, _, hcomp, _⟩ := build_group_ok_spec hok
    intro t ht _hne b hb hpos
    have hrow : rowOf seed fetch t =
        some { make_row t b with group := seed, isSeed := t == seed } := by
      simp [rowOf, hb]
    refine ⟨_, hcomp t ht _ hrow hpos, rfl⟩

theorem one_failure_tolerance_witness :
    ∃ rows, build_group "AAA" ["BBB"] fetchW6 = Except.ok rows ∧
      (∀ r ∈ rows, r.ticker ∈ dedupUpper ["AAA", "BBB"] ∧ r.ticker ≠ "BBB") ∧
      (∀ t ∈ dedupUpper ["AAA", "BBB"], t ≠ "BBB" →
        ∀ b, fetchW6 t = some b → posFinite (rnd2F (effClose b)) = true →
          ∃ r ∈ rows, r.ticker = t) :=
  one_failure_tolerance "AAA" ["BBB"] fetchW6 "BBB" (by decide) rfl
    (by decide) ⟨"AAA", by decide, by decide⟩

/-! ### Helper lemmas: run-level assembly -/

theorem filterMap_filter_ne {α β : Type} [DecidableEq α] (g : α → Option β) (a : α)
    (h : g a = none) :
    ∀ l : List α, l.filterMap g = (l.filter (fun x => x != a)).filterMap g
  | [] => rfl
  | x :: l => by
    by_cases hx : x = a
    · subst hx
      have hb : (x != x) = false := by simp
      rw [List.filterMap_cons_none h, List.filter_cons, hb]
      simp only [Bool.false_eq_true, if_false]
      exact filterMap_filter_ne g x h l
    · have hb : (x != a) = true := bne_iff_ne.2 hx
      rw [List.filter_cons, hb, if_pos rfl, List.filterMap_cons, List.filterMap_cons]
      cases g x with
      | none => exact filterMap_filter_ne g a h l
      | some b => rw [filterMap_filter_ne g a h l]

/-- Claim C7: a seed all of whose candidates fail to fetch is a hard failure for
that seed only: `build_group` raises for it, it contributes no entry to
the run's groups, and the remaining seeds are processed exactly as if the
failed seed were absent. -/
theorem seed_failure_isolated (seeds : List String) (peersOf : String → List String)
    (fetch : String → Option Bar) (seed0 : String)
    (hmem : seed0 ∈ seeds)
    (hfail : ∀ t ∈ dedupUpper (seed0 :: peersOf seed0), fetch t = none) :
    (∃ e, build_group seed0 (peersOf seed0) fetch = Except.error e) ∧
    seed0 ∉ (successfulGroups seeds peersOf fetch).map Prod.fst ∧
    successfulGroups seeds peersOf fetch =
      successfulGroups (seeds.filter (fun s => s != seed0)) peersOf fetch := by
  have hrows0 : (dedupUpper (seed0 :: peersOf seed0)).filterMap (rowOf seed0 fetch) = [] := by
    rw [List.filterMap_eq_nil_iff]
    intro t ht
    simp [rowOf, hfail t ht]
  have herr : build_group seed0 (peersOf seed0) fetch =
      Except.error ("No valid rows for group " ++ seed0) := by
    simp only [build_group]
    rw [hrows0]
    rfl
  refine ⟨⟨_, herr⟩, ?_, ?_⟩
  · intro hmem'
    rcases List.mem_map.1 hmem' with ⟨pr, hsg, hfst⟩
    rcases List.mem_filterMap.1 hsg with ⟨s, _hs, hmatch⟩
    cases hbg : build_group s (peersOf s) fetch with
    | ok df =>
      rw [hbg] at hmatch
      simp only [Option.some.injEq] at hmatch
      have hs0 : s = seed0 := by rw [← hfst, ← hmatch]
      rw [hs0, herr] at hbg
      exact Except.noConfusion hbg
    | error e =>
      rw [hbg] at hmatch
      exact Option.noConfusion hmatch
  · unfold successfulGroups
    apply filterMap_filter_ne
    rw [herr]

theorem seed_failure_isolated_witness :
    (∃ e, build_group "TSLA" [] fetchW7 = Except.error e) ∧
    "TSLA" ∉ (successfulGroups ["NVDA", "TSLA"] (fun _ => []) fetchW7).map Prod.fst ∧
    successfulGroups ["NVDA", "TSLA"] (fun _ => []) fetchW7 =
      successfulGroups (["NVDA", "TSLA"].filter (fun s => s != "TSLA"))
        (fun _ => []) fetchW7 :=
  seed_failure_isolated ["NVDA", "TSLA"] (fun _ => []) fetchW7 "TSLA"
    (by decide) (by decide)

/-- Claim C8: a run in which no seed's group succeeds is fatal: `build_all`
raises the "No groups built" error, whose traceback the `__main__` handler
logs before re-raising, so the process exit status is non-zero. -/
theorem run_fatal_no_groups (seeds : List String) (peersOf : String → List String)
    (fetch : String → Option Bar)
    (hall : ∀ s ∈ seeds, ∃ e, build_group s (peersOf s) fetch = Except.error e) :
    build_all seeds peersOf fetch =
      Except.error "No groups built. Check network or seed tickers." ∧
    mainExitCode seeds peersOf fetch = 1 ∧
    mainExitCode seeds peersOf fetch ≠ 0 := by
  have hsg : successfulGroups seeds peersOf fetch = [] := by
    unfold successfulGroups
    rw [List.filterMap_eq_nil_iff]
    intro s hs
    obtain ⟨e, he⟩ := hall s hs
    rw [he]
  have hba : build_all seeds peersOf fetch =
      Except.error "No groups built. Check network or seed tickers." := by
    unfold build_all
    rw [hsg]
    rfl
  refine ⟨hba, ?_, ?_⟩
  · unfold mainExitCode
    rw [hba]
  · unfold mainExitCode
    rw [hba]
    exact one_ne_zero

theorem run_fatal_no_groups_witness :
    build_all ["NVDA"] (fun _ => []) (fun _ => none) =
      Except.error "No groups built. Check network or seed tickers." ∧
    mainExitCode ["NVDA"] (fun _ => []) (fun _ => none) = 1 := by
  have h := run_fatal_no_groups ["NVDA"] (fun _ => []) (fun _ => none) ?_
  · exact ⟨h.1, h.2.1⟩
  · intro s hs
    have hs' : s = "NVDA" := List.mem_singleton.1 hs
    subst hs'
    exact ⟨_, rfl⟩

end Report
